import Mathlib

/-!
Shallow embedding of the Active-Meeting-Listener VTT pipeline
(source: src/vttparser.py) together with proofs of its specified
properties.

The pipeline is: parse_vtt (line-oriented parsing of caption blocks)
→ sort_records (stable sort by numeric event_id then sequence)
→ collate_records (merge fragments of one event)
→ a numeric re-sort by event_id
→ collate_records_v2 (merge consecutive records of one speaker).

Python dictionaries with a fixed key set are modelled as structures with
Option-valued fields (a key holding None becomes none); file input is a
list of lines; unhandled Python exceptions (ValueError from tuple
unpacking or from int()) become an Except error value.
-/

/-- Errors the pipeline can raise: the ValueError from unpacking a
malformed identifier segment in parse_vtt, and the ValueError from
int() on a non-numeric field during sorting. -/
inductive VttError where
  | malformedIdentifier
  | invalidNumericField
deriving DecidableEq, Repr

/-- One parsed caption block: the record dictionary built by parse_vtt. -/
structure RawRecord where
  id : Option String := none
  event_id : Option String := none
  sequence : Option String := none
  start : Option String := none
  «end» : Option String := none
  speaker : Option String := none
  text : String := ""
deriving DecidableEq, Repr

/-- One record per event id, as produced by collate_records. -/
structure EventRecord where
  id : Option String
  event_id : Option String
  start : Option String
  «end» : Option String
  speaker : Option String
  text : String
deriving DecidableEq, Repr

/-- One speaker turn, as produced by collate_records_v2: the event
fields plus the list of event ids folded into the turn. -/
structure TurnRecord where
  id : Option String
  event_id : Option String
  start : Option String
  «end» : Option String
  speaker : Option String
  text : String
  collated_events : List (Option String)
deriving DecidableEq, Repr

/-- ASCII whitespace stripped by Python str.strip (the source data is
ASCII captioning text). -/
def pyWhitespace (c : Char) : Bool :=
  c == ' ' || c == '\t' || c == '\n' || c == '\r' || c == '\x0b' || c == '\x0c'

/-- Python line.strip(): drop whitespace from both ends. -/
def pyStrip (s : String) : String :=
  String.mk (((s.data.dropWhile pyWhitespace).reverse.dropWhile pyWhitespace).reverse)

/-- A word character of the regex class backslash-w (ASCII). -/
def isWordChar (c : Char) : Bool := c.isAlphanum || c == '_'

/-- Anchored match of the identifier pattern, a nonempty run of word
characters or hyphens, a slash, then a nonempty run of digits or
hyphens; returns capture group 1. Since the two character classes
exclude the slash, the backtracking regex engine succeeds exactly when
the maximal first run is followed by a slash and at least one
digit-or-hyphen, and the capture is greedy on both runs. -/
def idMatch (l : String) : Option String :=
  let cs := l.data
  let r := cs.takeWhile (fun c => isWordChar c || c == '-')
  match cs.drop r.length with
  | '/' :: rest =>
    let s := rest.takeWhile (fun c => c.isDigit || c == '-')
    if r.isEmpty || s.isEmpty then none else some (String.mk (r ++ '/' :: s))
  | _ => none

/-- Match one timestamp shape dd:dd:dd.ddd at the head of a character
list, returning it and the remainder. -/
def tsShape : List Char → Option (String × List Char)
  | a :: b :: ':' :: c :: d :: ':' :: e :: f :: '.' :: g :: h :: i :: rest =>
    if [a, b, c, d, e, f, g, h, i].all Char.isDigit then
      some (String.mk [a, b, ':', c, d, ':', e, f, '.', g, h, i], rest)
    else none
  | _ => none

/-- Anchored match of the timecode pattern: timestamp, the arrow
separator, timestamp; returns the two captured timestamps. -/
def tcMatch (l : String) : Option (String × String) :=
  match tsShape l.data with
  | some (t1, rest) =>
    match rest with
    | ' ' :: '-' :: '-' :: '>' :: ' ' :: rest2 =>
      match tsShape rest2 with
      | some (t2, _) => some (t1, t2)
      | none => none
    | _ => none
  | none => none

/-- Anchored match of the speaker-open tag: a literal less-than, v,
space, then a minimal nonempty run of characters up to the next
greater-than; returns the captured name. -/
def spMatch (l : String) : Option String :=
  match l.data with
  | '<' :: 'v' :: ' ' :: c :: rest =>
    if rest.contains '>' then
      some (String.mk (c :: rest.takeWhile (fun x => x != '>')))
    else none
  | _ => none

/-- The closing speaker tag. -/
def vClose : String := "</v>"

/-- Python s.split(sep) for a single-character separator: split at
every occurrence; the empty string splits to one empty part. -/
def splitOnChar (sep : Char) : List Char → List (List Char)
  | [] => [[]]
  | c :: cs =>
    if c = sep then [] :: splitOnChar sep cs
    else
      match splitOnChar sep cs with
      | [] => [[c]]
      | h :: t => (c :: h) :: t

/-- Occurrence test for a character sequence inside another (the
Python in operator on strings). -/
def containsSeq (sep : List Char) : List Char → Bool
  | [] => sep.isEmpty
  | c :: cs => sep.isPrefixOf (c :: cs) || containsSeq sep cs

/-- The prefix of a character list before the first occurrence of a
separator sequence, or the whole list when it does not occur. -/
def takeBeforeSeq (sep : List Char) : List Char → List Char
  | [] => []
  | c :: cs => if sep.isPrefixOf (c :: cs) then [] else c :: takeBeforeSeq sep cs

/-- The suffix of a character list after the first occurrence of a
character. -/
def afterChar (sep : Char) : List Char → List Char
  | [] => []
  | c :: cs => if c = sep then cs else afterChar sep cs

/-- Python line.split(a-greater-than-sign, 1), second component: all of
the line after the first greater-than sign (the caller has established
that one occurs). -/
def afterFirstGt (l : String) : String :=
  String.mk (afterChar '>' l.data)

/-- Python substring containment test (the in operator). -/
def containsSub (s sub : String) : Bool := containsSeq sub.data s.data

/-- Python s.split(sub, 1), first component: the prefix of s before the
first occurrence of sub, or all of s when sub does not occur. -/
def takeBeforeSub (s sub : String) : String := String.mk (takeBeforeSeq sub.data s.data)

/-- The unpacking event_id, sequence_info from
id_match.group(1).split(slash)[1].split(hyphen): succeeds exactly when
the post-slash segment splits into exactly two hyphen-separated parts;
otherwise the Python code raises ValueError. -/
def idFields (g : String) : Option (String × String) :=
  match (splitOnChar '/' g.data)[1]? with
  | some seg =>
    match splitOnChar '-' seg with
    | [e, q] => some (String.mk e, String.mk q)
    | _ => none
  | none => none

/-- Numeric value of an ASCII digit. -/
def digitVal (c : Char) : Nat := c.toNat - '0'.toNat

/-- Digits of a Python int literal after the first one: digits, with a
single underscore allowed between two digits. -/
def pyDigits : Nat → List Char → Option Nat
  | acc, [] => some acc
  | acc, '_' :: c :: rest =>
    if c.isDigit then pyDigits (acc * 10 + digitVal c) rest else none
  | acc, c :: rest =>
    if c.isDigit then pyDigits (acc * 10 + digitVal c) rest else none

/-- Python int(s) on a string: strip whitespace, optional sign, then a
nonempty digit run (single underscores allowed between digits);
none when the string is not a valid integer literal. -/
def pyInt (s : String) : Option Int :=
  let cs := ((s.data.dropWhile pyWhitespace).reverse.dropWhile pyWhitespace).reverse
  match cs with
  | '+' :: c :: rest =>
    if c.isDigit then (pyDigits (digitVal c) rest).map Int.ofNat else none
  | '-' :: c :: rest =>
    if c.isDigit then (pyDigits (digitVal c) rest).map (fun n => -(Int.ofNat n)) else none
  | c :: rest =>
    if c.isDigit then (pyDigits (digitVal c) rest).map Int.ofNat else none
  | [] => none

/-- Python int(x) on a dictionary value that may be None: int(None)
raises, modelled as none. -/
def pyIntOpt : Option String → Option Int
  | some s => pyInt s
  | none => none

/-- The reset value of the current_record accumulator. -/
def emptyRecord : RawRecord := {}

/-- Loop state of parse_vtt: the records list and the current_record
accumulator. -/
structure ParserState where
  records : List RawRecord
  cur : RawRecord
deriving DecidableEq, Repr

/-- State at loop entry. -/
def initState : ParserState := ⟨[], emptyRecord⟩

/-- Python truthiness of current_record.get(the speaker key): None and
the empty string are falsy. -/
def speakerTruthy : Option String → Bool
  | some s => s != ""
  | none => false

/-- The branch dispatch of the parse_vtt line loop on the stripped
line, following the source's branch order: blank line, identifier
line, timecode line, speaker-open line, continuation line (only when a
speaker is set), otherwise ignored. -/
def parseLineCore (st : ParserState) (l : String) : Except VttError ParserState :=
  if l = "" then
    if st.cur.start.isSome then .ok ⟨st.records ++ [st.cur], emptyRecord⟩ else .ok st
  else
    match idMatch l with
    | some g =>
      match idFields g with
      | some (e, q) =>
        .ok ⟨st.records, { st.cur with id := some g, event_id := some e, sequence := some q }⟩
      | none => .error .malformedIdentifier
    | none =>
      match tcMatch l with
      | some (s1, s2) =>
        .ok ⟨st.records, { st.cur with start := some s1, «end» := some s2 }⟩
      | none =>
        match spMatch l with
        | some name =>
          .ok ⟨st.records,
            { st.cur with
              speaker := some name,
              text := st.cur.text ++ pyStrip (if containsSub l vClose
                then takeBeforeSub (afterFirstGt l) vClose
                else afterFirstGt l) ++ " " }⟩
        | none =>
          if speakerTruthy st.cur.speaker then
            .ok ⟨st.records,
              { st.cur with text := st.cur.text ++ pyStrip (takeBeforeSub l vClose) ++ " " }⟩
          else .ok st

/-- One iteration of the parse_vtt line loop: strip the line, then
dispatch on its shape. -/
def parseLine (st : ParserState) (line : String) : Except VttError ParserState :=
  parseLineCore st (pyStrip line)

/-- The parse_vtt line loop over all lines of the file. -/
def parseLoop : ParserState → List String → Except VttError ParserState
  | st, [] => .ok st
  | st, line :: rest =>
    match parseLine st line with
    | .ok st2 => parseLoop st2 rest
    | .error e => .error e

/-- End-of-input flush: append the last record if its start is set. -/
def finalRecords (st : ParserState) : List RawRecord :=
  st.records ++ if st.cur.start.isSome then [st.cur] else []

/-- parse_vtt over a list of input lines. -/
def parse_vtt (lines : List String) : Except VttError (List RawRecord) :=
  (parseLoop initState lines).map finalRecords

/-- Python tuple comparison on int pairs: lexicographic. -/
def pairLe (p q : Int × Int) : Prop := p.1 < q.1 ∨ (p.1 = q.1 ∧ p.2 ≤ q.2)

instance : DecidableRel pairLe := fun p q => by unfold pairLe; infer_instance

/-- The sort key of sort_records: (int(event_id), int(sequence)). The
defaulted 0 is only reached when the field does not parse, in which
case sort_records has already failed. -/
def sortKey (r : RawRecord) : Int × Int :=
  ((pyIntOpt r.event_id).getD 0, (pyIntOpt r.sequence).getD 0)

/-- Record comparison used by the stable sort of sort_records. -/
def recLe (a b : RawRecord) : Prop := pairLe (sortKey a) (sortKey b)

instance : DecidableRel recLe := fun a b => by unfold recLe; infer_instance

/-- sort_records: Python sorted() computes int(event_id) and
int(sequence) for every record (ValueError on any unparseable field),
then stable-sorts ascending by that key pair. -/
def sort_records (records : List RawRecord) : Except VttError (List RawRecord) :=
  if records.all (fun r => (pyIntOpt r.event_id).isSome && (pyIntOpt r.sequence).isSome)
  then .ok (List.insertionSort recLe records)
  else .error .invalidNumericField

/-- The fresh collated-dictionary entry created for a first-seen
event id in collate_records. -/
def initEvt (r : RawRecord) : EventRecord :=
  { id := r.id, event_id := r.event_id, start := r.start, «end» := r.«end»,
    speaker := r.speaker, text := r.text }

/-- The in-place update of an existing collated entry in
collate_records: append the text with one joining space and overwrite
the end time. -/
def mergeEvt (e : EventRecord) (r : RawRecord) : EventRecord :=
  { e with text := e.text ++ " " ++ r.text, «end» := r.«end» }

/-- One iteration of the collate_records loop over the
insertion-ordered dictionary, modelled as a list of entries: update the
entry with this event id if present, else append a fresh one. -/
def insertRecord : List EventRecord → RawRecord → List EventRecord
  | [], r => [initEvt r]
  | e :: es, r =>
    if e.event_id = r.event_id then mergeEvt e r :: es else e :: insertRecord es r

/-- collate_records: fold the records into the insertion-ordered
dictionary and return its values. -/
def collate_records (records : List RawRecord) : List EventRecord :=
  records.foldl insertRecord []

/-- The sort key of the numeric re-sort between the two collators:
int(event_id). -/
def eventKey (e : EventRecord) : Int := (pyIntOpt e.event_id).getD 0

/-- Comparison for the numeric re-sort of collated records. -/
def evLe (a b : EventRecord) : Prop := eventKey a ≤ eventKey b

instance : DecidableRel evLe := fun a b => by unfold evLe; infer_instance

/-- The explicit re-sort of collated records by int(event_id) inside
process_vtt_to_dictionary; int() on every record's event_id, ValueError
when one does not parse, stable sort otherwise. -/
def sortCollated (l : List EventRecord) : Except VttError (List EventRecord) :=
  if l.all (fun e => (pyIntOpt e.event_id).isSome)
  then .ok (List.insertionSort evLe l)
  else .error .invalidNumericField

/-- The fresh collation block opened by collate_records_v2 from one
record, seeding collated_events with its event id. -/
def initTurn (r : EventRecord) : TurnRecord :=
  { id := r.id, event_id := r.event_id, start := r.start, «end» := r.«end»,
    speaker := r.speaker, text := r.text, collated_events := [r.event_id] }

/-- The merge step of collate_records_v2 for a record with the same
speaker: join text with one space, overwrite the end time, append the
event id. -/
def mergeTurn (c : TurnRecord) (r : EventRecord) : TurnRecord :=
  { c with
    text := c.text ++ " " ++ r.text,
    «end» := r.«end»,
    collated_events := c.collated_events ++ [r.event_id] }

/-- The collate_records_v2 loop after the first record has opened a
collation block: merge on equal speaker, otherwise emit the open block
and open a new one; the last open block is emitted at the end. -/
def v2loop (cur : TurnRecord) : List EventRecord → List TurnRecord
  | [] => [cur]
  | r :: rest =>
    if cur.speaker = r.speaker then v2loop (mergeTurn cur r) rest
    else cur :: v2loop (initTurn r) rest

/-- collate_records_v2: scan the records left to right, merging
consecutive records that share a speaker into one turn. -/
def collate_records_v2 : List EventRecord → List TurnRecord
  | [] => []
  | r :: rest => v2loop (initTurn r) rest

/-- process_vtt_to_dictionary: the whole pipeline over the input
lines. -/
def process_vtt_to_dictionary (lines : List String) : Except VttError (List TurnRecord) := do
  let records ← parse_vtt lines
  let sorted_records ← sort_records records
  let collated_records := collate_records sorted_records
  let final_sorted_records ← sortCollated collated_records
  pure (collate_records_v2 final_sorted_records)

/-! Basic field lemmas for the collator building blocks. -/

lemma initTurn_speaker (r : EventRecord) : (initTurn r).speaker = r.speaker := rfl

lemma mergeTurn_speaker (c : TurnRecord) (r : EventRecord) :
    (mergeTurn c r).speaker = c.speaker := rfl

lemma initTurn_collated (r : EventRecord) :
    (initTurn r).collated_events = [r.event_id] := rfl

lemma mergeTurn_collated (c : TurnRecord) (r : EventRecord) :
    (mergeTurn c r).collated_events = c.collated_events ++ [r.event_id] := rfl

/-- The v2 loop starting from an open block never returns the empty
list, its first emitted turn carries the open block's speaker, and no
two adjacent emitted turns share a speaker. -/
lemma v2loop_chain (cur : TurnRecord) (es : List EventRecord) :
    List.Chain' (fun a b => a.speaker ≠ b.speaker) (v2loop cur es) ∧
    ∀ hd ∈ (v2loop cur es).head?, hd.speaker = cur.speaker := by
  induction es generalizing cur with
  | nil =>
    refine ⟨by simp [v2loop], ?_⟩
    intro hd hm
    simp [v2loop] at hm
    rw [hm]
  | cons r rest ih =>
    by_cases h : cur.speaker = r.speaker
    · simp only [v2loop, if_pos h]
      exact ⟨(ih (mergeTurn cur r)).1, fun hd hm => (ih (mergeTurn cur r)).2 hd hm⟩
    · simp only [v2loop, if_neg h]
      obtain ⟨ihc, ihh⟩ := ih (initTurn r)
      refine ⟨?_, ?_⟩
      · rw [List.chain'_cons']
        refine ⟨?_, ihc⟩
        intro hd hm
        rw [ihh hd hm, initTurn_speaker]
        exact h
      · intro hd hm
        simp at hm
        rw [hm]

/-- C3: in the output of the Speaker Collator, no two adjacent
TurnRecords carry an identical speaker value (speaker fields are
Option-valued, so two null speakers also count as identical and never
sit in adjacent turns). -/
theorem collate_records_v2_adjacent_speakers_differ (records : List EventRecord) :
    List.Chain' (fun a b => a.speaker ≠ b.speaker) (collate_records_v2 records) := by
  cases records with
  | nil => simp [collate_records_v2]
  | cons r rest => exact (v2loop_chain (initTurn r) rest).1

/-! Parser lemmas. -/

lemma pyStrip_empty : pyStrip "" = "" := rfl

/-- Splitting the line loop of parse_vtt at any point. -/
lemma parseLoop_append (ls1 ls2 : List String) (st : ParserState) :
    parseLoop st (ls1 ++ ls2) =
      match parseLoop st ls1 with
      | .ok st2 => parseLoop st2 ls2
      | .error e => .error e := by
  induction ls1 generalizing st with
  | nil => simp [parseLoop]
  | cons l ls ih =>
    simp only [List.cons_append, parseLoop]
    cases parseLine st l <;> simp [ih]

/-- C7: the parser finalization rule. Empty input parses to the empty
record list; a trailing blank line is indistinguishable from plain end
of input (both flush the accumulator exactly when its start field is
set); and a blank line appends the current record and resets the
accumulator when start is set, and does nothing at all when start is
unset. -/
theorem parse_vtt_finalization :
    parse_vtt [] = .ok [] ∧
    (∀ lines, parse_vtt (lines ++ [""]) = parse_vtt lines) ∧
    (∀ st : ParserState, parseLine st "" =
      .ok (if st.cur.start.isSome then ⟨st.records ++ [st.cur], emptyRecord⟩ else st)) := by
  have hblank : ∀ st : ParserState, parseLine st "" =
      .ok (if st.cur.start.isSome then ⟨st.records ++ [st.cur], emptyRecord⟩ else st) := by
    intro st
    by_cases h : st.cur.start.isSome <;>
      simp [parseLine, parseLineCore, pyStrip_empty, h]
  refine ⟨rfl, ?_, hblank⟩
  intro lines
  unfold parse_vtt
  rw [parseLoop_append]
  cases hl : parseLoop initState lines with
  | error e => rfl
  | ok st =>
    simp only [parseLoop, hblank st]
    by_cases h : st.cur.start.isSome <;>
      simp [h, finalRecords, emptyRecord, Except.map]

/-- A stripped line that still matches the identifier pattern but whose
post-slash segment does not split into exactly two hyphen-separated
parts: on such a line the source raises ValueError from the unpacking. -/
def malformedIdLine (line : String) : Bool :=
  match idMatch (pyStrip line) with
  | some g => (idFields g).isNone
  | none => false

lemma idMatch_empty : idMatch "" = none := rfl

/-- A malformed identifier line makes the line step fail from any
state. -/
lemma parseLine_malformed (st : ParserState) (line : String)
    (h : malformedIdLine line = true) :
    parseLine st line = .error .malformedIdentifier := by
  unfold malformedIdLine at h
  cases hm : idMatch (pyStrip line) with
  | none => rw [hm] at h; simp at h
  | some g =>
    rw [hm] at h
    simp only [Option.isNone_iff_eq_none] at h
    have hne : pyStrip line ≠ "" := by
      intro he
      rw [he, idMatch_empty] at hm
      exact Option.noConfusion hm
    simp only [parseLine, parseLineCore, if_neg hne, hm, h]

/-- The only error parse_vtt's line step can raise is the malformed
identifier one. -/
lemma parseLine_error_eq (st : ParserState) (line : String) (e : VttError)
    (h : parseLine st line = .error e) : e = .malformedIdentifier := by
  unfold parseLine parseLineCore at h
  split at h
  · split at h <;> exact Except.noConfusion h
  · split at h
    · split at h
      · exact Except.noConfusion h
      · injection h with h2
        exact h2.symm
    · split at h
      · exact Except.noConfusion h
      · split at h
        · exact Except.noConfusion h
        · split at h <;> exact Except.noConfusion h

/-- Any run of the line loop over a list containing a malformed
identifier line fails. -/
lemma parseLoop_malformed (lines : List String) (line : String)
    (h1 : line ∈ lines) (h2 : malformedIdLine line = true) :
    ∀ st, parseLoop st lines = .error .malformedIdentifier := by
  induction lines with
  | nil => exact absurd h1 (List.not_mem_nil line)
  | cons l ls ih =>
    intro st
    rcases List.mem_cons.mp h1 with he | hm
    · subst he
      simp only [parseLoop, parseLine_malformed st line h2]
    · simp only [parseLoop]
      cases hp : parseLine st l with
      | ok st2 => exact ih hm st2
      | error e => rw [parseLine_error_eq st l e hp]

/-- C6: an input containing an identifier-shaped line whose id segment
does not split into exactly two hyphen-separated parts makes the parser
fail with the malformed-identifier error; no record list is produced at
all. -/
theorem parse_vtt_malformed_identifier_fails (lines : List String) (line : String)
    (h1 : line ∈ lines) (h2 : malformedIdLine line = true) :
    parse_vtt lines = .error .malformedIdentifier := by
  unfold parse_vtt
  rw [parseLoop_malformed lines line h1 h2 initState]
  rfl

/-- Witness for C6: the line ch/123 matches the identifier pattern but
its id segment 123 has no hyphen, so the parser fails on an input
containing it. -/
theorem parse_vtt_malformed_identifier_fails_witness :
    parse_vtt ["ch/123", "00:00:01.000 --> 00:00:02.000"] = .error .malformedIdentifier :=
  parse_vtt_malformed_identifier_fails _ "ch/123" (by simp) (by decide)

/-- The line step preserves the parser invariant: an accumulator whose
start is set also has its end set, and every already-emitted record has
both set. -/
lemma parseLine_inv (st st' : ParserState) (line : String)
    (h : parseLine st line = .ok st')
    (h1 : st.cur.start.isSome → st.cur.«end».isSome)
    (h2 : ∀ r ∈ st.records, r.start.isSome ∧ r.«end».isSome) :
    (st'.cur.start.isSome → st'.cur.«end».isSome) ∧
      ∀ r ∈ st'.records, r.start.isSome ∧ r.«end».isSome := by
  unfold parseLine parseLineCore at h
  split at h
  · split at h
    · rename_i hs
      injection h with h3
      subst h3
      refine ⟨by simp [emptyRecord], ?_⟩
      intro r hr
      rcases List.mem_append.mp hr with hh | hh
      · exact h2 r hh
      · rw [List.mem_singleton] at hh
        subst hh
        exact ⟨hs, h1 hs⟩
    · injection h with h3
      subst h3
      exact ⟨h1, h2⟩
  · split at h
    · split at h
      · injection h with h3
        subst h3
        exact ⟨h1, h2⟩
      · exact Except.noConfusion h
    · split at h
      · injection h with h3
        subst h3
        exact ⟨fun _ => rfl, h2⟩
      · split at h
        · injection h with h3
          subst h3
          exact ⟨h1, h2⟩
        · split at h
          · injection h with h3
            subst h3
            exact ⟨h1, h2⟩
          · injection h with h3
            subst h3
            exact ⟨h1, h2⟩

/-- The line loop preserves the parser invariant. -/
lemma parseLoop_inv (lines : List String) :
    ∀ st st', parseLoop st lines = .ok st' →
      (st.cur.start.isSome → st.cur.«end».isSome) →
      (∀ r ∈ st.records, r.start.isSome ∧ r.«end».isSome) →
      (st'.cur.start.isSome → st'.cur.«end».isSome) ∧
        ∀ r ∈ st'.records, r.start.isSome ∧ r.«end».isSome := by
  induction lines with
  | nil =>
    intro st st' h h1 h2
    simp only [parseLoop] at h
    injection h with h3
    subst h3
    exact ⟨h1, h2⟩
  | cons l ls ih =>
    intro st st' h h1 h2
    simp only [parseLoop] at h
    cases hp : parseLine st l with
    | error e => rw [hp] at h; exact Except.noConfusion h
    | ok st2 =>
      rw [hp] at h
      obtain ⟨g1, g2⟩ := parseLine_inv st st2 l hp h1 h2
      exact ih st2 st' h g1 g2

/-- C9: every record emitted by parse_vtt has both its start and its
end field set: the two are only ever assigned together from a timecode
line, and a record is only flushed when start is set. -/
theorem parse_vtt_start_end_some (lines : List String) (out : List RawRecord)
    (h : parse_vtt lines = .ok out) :
    ∀ r ∈ out, r.start.isSome ∧ r.«end».isSome := by
  unfold parse_vtt at h
  cases hl : parseLoop initState lines with
  | error e => rw [hl] at h; exact Except.noConfusion h
  | ok st =>
    rw [hl] at h
    simp only [Except.map] at h
    injection h with h3
    obtain ⟨g1, g2⟩ := parseLoop_inv lines initState st hl
      (by simp [initState, emptyRecord]) (by simp [initState])
    intro r hmem
    rw [← h3] at hmem
    unfold finalRecords at hmem
    rcases List.mem_append.mp hmem with hh | hh
    · exact g2 r hh
    · by_cases hs : st.cur.start.isSome
      · rw [if_pos hs, List.mem_singleton] at hh
        subst hh
        exact ⟨hs, g1 hs⟩
      · rw [if_neg hs] at hh
        exact absurd hh (List.not_mem_nil r)

/-- Witness for C9 at a concrete one-block input. -/
theorem parse_vtt_start_end_some_witness :
    ({ start := some "00:00:01.000", «end» := some "00:00:02.000" } : RawRecord).start.isSome ∧
      ({ start := some "00:00:01.000", «end» := some "00:00:02.000" } : RawRecord).«end».isSome :=
  parse_vtt_start_end_some ["00:00:01.000 --> 00:00:02.000"]
    [{ start := some "00:00:01.000", «end» := some "00:00:02.000" }]
    (by rfl) _ (by simp)

lemma idMatch_ne_empty (l : String) (g : String) (h : idMatch l = some g) : l ≠ "" := by
  intro he
  rw [he, idMatch_empty] at h
  exact Option.noConfusion h

lemma tcMatch_empty : tcMatch "" = none := rfl

lemma tcMatch_ne_empty (l : String) (p : String × String) (h : tcMatch l = some p) : l ≠ "" := by
  intro he
  rw [he, tcMatch_empty] at h
  exact Option.noConfusion h

/-- C10: line precedence inside an open speaker block. Even when a
speaker is already set on the accumulator, a non-blank line matching
the identifier pattern is handled by the identifier branch (overwriting
id, event_id and sequence and leaving text untouched, or failing on a
malformed segment), and a line matching the timecode pattern but not
the identifier pattern is handled by the timecode branch (overwriting
start and end and leaving text untouched); neither is ever appended to
the accumulated text. -/
theorem parseLine_precedence (st : ParserState) (line : String)
    (hspk : speakerTruthy st.cur.speaker = true) :
    (∀ g e q, idMatch (pyStrip line) = some g → idFields g = some (e, q) →
      parseLine st line = .ok ⟨st.records,
        { st.cur with id := some g, event_id := some e, sequence := some q }⟩) ∧
    (∀ g, idMatch (pyStrip line) = some g → idFields g = none →
      parseLine st line = .error .malformedIdentifier) ∧
    (∀ s1 s2, idMatch (pyStrip line) = none → tcMatch (pyStrip line) = some (s1, s2) →
      parseLine st line = .ok ⟨st.records,
        { st.cur with start := some s1, «end» := some s2 }⟩) := by
  refine ⟨?_, ?_, ?_⟩
  · intro g e q hm hf
    unfold parseLine parseLineCore
    rw [if_neg (idMatch_ne_empty _ _ hm)]
    simp only [hm, hf]
  · intro g hm hf
    unfold parseLine parseLineCore
    rw [if_neg (idMatch_ne_empty _ _ hm)]
    simp only [hm, hf]
  · intro s1 s2 hm ht
    unfold parseLine parseLineCore
    rw [if_neg (tcMatch_ne_empty _ _ ht)]
    simp only [hm, ht]

/-- Witness for C10: an identifier line arriving while a speaker block
is open overwrites the id fields and leaves the text alone. -/
theorem parseLine_precedence_witness :
    parseLine ⟨[], { speaker := some "Alice", text := "t " }⟩ "ch/5-7" =
      .ok ⟨[], { id := some "ch/5-7", event_id := some "5", sequence := some "7",
                 speaker := some "Alice", text := "t " }⟩ :=
  (parseLine_precedence ⟨[], { speaker := some "Alice", text := "t " }⟩ "ch/5-7"
    (by decide)).1 "ch/5-7" "5" "7" (by decide) (by decide)

/-! Event Collator lemmas. -/

lemma initEvt_event_id (r : RawRecord) : (initEvt r).event_id = r.event_id := rfl

lemma mergeEvt_event_id (v : EventRecord) (r : RawRecord) :
    (mergeEvt v r).event_id = v.event_id := rfl

/-- Single-space join of a list of strings. -/
def joinSp : List String → String
  | [] => ""
  | [x] => x
  | x :: y :: t => x ++ " " ++ joinSp (y :: t)

lemma joinSp_glue (a b : String) (l : List String) :
    joinSp ((a ++ " " ++ b) :: l) = a ++ " " ++ joinSp (b :: l) := by
  cases l with
  | nil => rfl
  | cons c t => simp [joinSp, String.append_assoc]

/-- Updating the dictionary with one record rewires only the entry
keyed by that record's event id. -/
lemma find?_insertRecord (acc : List EventRecord) (r : RawRecord) (k : Option String) :
    (insertRecord acc r).find? (fun v => v.event_id == k) =
      if k = r.event_id then
        match acc.find? (fun v => v.event_id == r.event_id) with
        | some v => some (mergeEvt v r)
        | none => some (initEvt r)
      else acc.find? (fun v => v.event_id == k) := by
  induction acc with
  | nil =>
    by_cases hk : k = r.event_id
    · subst hk
      simp [insertRecord, List.find?, initEvt]
    · have h1 : (r.event_id == k) = false := beq_eq_false_iff_ne.mpr fun h => hk h.symm
      simp [insertRecord, List.find?, initEvt, h1, if_neg hk]
  | cons v acc ih =>
    by_cases he : v.event_id = r.event_id
    · by_cases hk : k = r.event_id
      · subst hk
        have hp : ((mergeEvt v r).event_id == r.event_id) = true := by
          rw [mergeEvt_event_id]
          exact beq_iff_eq.mpr he
        have hv : (v.event_id == r.event_id) = true := beq_iff_eq.mpr he
        simp [insertRecord, if_pos he, List.find?, hp, hv]
      · have h1 : ((mergeEvt v r).event_id == k) = false := by
          rw [mergeEvt_event_id, he]
          exact beq_eq_false_iff_ne.mpr fun h => hk h.symm
        have h2 : (v.event_id == k) = false := by
          rw [he]
          exact beq_eq_false_iff_ne.mpr fun h => hk h.symm
        simp [insertRecord, if_pos he, List.find?, h1, h2, if_neg hk]
    · by_cases hk : k = r.event_id
      · subst hk
        have h2 : (v.event_id == r.event_id) = false := beq_eq_false_iff_ne.mpr he
        simp [insertRecord, if_neg he, List.find?, h2, ih, if_pos rfl]
      · by_cases hvk : v.event_id = k
        · have h2 : (v.event_id == k) = true := beq_iff_eq.mpr hvk
          simp [insertRecord, if_neg he, List.find?, h2, if_neg hk]
        · have h2 : (v.event_id == k) = false := beq_eq_false_iff_ne.mpr hvk
          simp [insertRecord, if_neg he, List.find?, h2, ih, if_neg hk]

/-- The dictionary entry for a key after folding a record list: the
occurrences of the key in the list merged left to right, on top of any
pre-existing entry. -/
lemma find?_collate_aux (l : List RawRecord) :
    ∀ (acc : List EventRecord) (k : Option String),
      (l.foldl insertRecord acc).find? (fun v => v.event_id == k) =
        match acc.find? (fun v => v.event_id == k) with
        | some v => some ((l.filter (fun r => r.event_id == k)).foldl mergeEvt v)
        | none =>
          match l.filter (fun r => r.event_id == k) with
          | [] => none
          | hd :: tl => some (tl.foldl mergeEvt (initEvt hd)) := by
  induction l with
  | nil =>
    intro acc k
    cases h : acc.find? (fun v => v.event_id == k) <;> simp [h]
  | cons r l ih =>
    intro acc k
    rw [List.foldl_cons, ih (insertRecord acc r) k, find?_insertRecord]
    by_cases hk : k = r.event_id
    · subst hk
      rw [if_pos rfl]
      have hfil : (r :: l).filter (fun x => x.event_id == r.event_id) =
          r :: l.filter (fun x => x.event_id == r.event_id) := by
        simp [List.filter_cons]
      rw [hfil]
      cases ha : acc.find? (fun v => v.event_id == r.event_id) <;>
        simp [ha, List.foldl_cons]
    · rw [if_neg hk]
      have hfil : (r :: l).filter (fun x => x.event_id == k) =
          l.filter (fun x => x.event_id == k) := by
        have : (r.event_id == k) = false := by
          simp [beq_iff_eq]
          exact fun h => (hk h.symm).elim
        simp [List.filter_cons, this]
      rw [hfil]

lemma foldl_mergeEvt_id (t : List RawRecord) :
    ∀ v : EventRecord, (t.foldl mergeEvt v).id = v.id := by
  induction t with
  | nil => intro v; rfl
  | cons r t ih => intro v; rw [List.foldl_cons, ih]; rfl

lemma foldl_mergeEvt_event_id (t : List RawRecord) :
    ∀ v : EventRecord, (t.foldl mergeEvt v).event_id = v.event_id := by
  induction t with
  | nil => intro v; rfl
  | cons r t ih => intro v; rw [List.foldl_cons, ih]; rfl

lemma foldl_mergeEvt_start (t : List RawRecord) :
    ∀ v : EventRecord, (t.foldl mergeEvt v).start = v.start := by
  induction t with
  | nil => intro v; rfl
  | cons r t ih => intro v; rw [List.foldl_cons, ih]; rfl

lemma foldl_mergeEvt_speaker (t : List RawRecord) :
    ∀ v : EventRecord, (t.foldl mergeEvt v).speaker = v.speaker := by
  induction t with
  | nil => intro v; rfl
  | cons r t ih => intro v; rw [List.foldl_cons, ih]; rfl

lemma foldl_mergeEvt_end (t : List RawRecord) :
    ∀ v : EventRecord,
      (t.foldl mergeEvt v).«end» = (t.map (fun r => r.«end»)).getLastD v.«end» := by
  induction t with
  | nil => intro v; rfl
  | cons r t ih =>
    intro v
    rw [List.foldl_cons, ih, List.map_cons, List.getLastD_cons]
    rfl

lemma foldl_mergeEvt_text (t : List RawRecord) :
    ∀ v : EventRecord,
      (t.foldl mergeEvt v).text = joinSp (v.text :: t.map (fun r => r.text)) := by
  induction t with
  | nil => intro v; rfl
  | cons r t ih =>
    intro v
    rw [List.foldl_cons, ih, List.map_cons]
    exact joinSp_glue v.text r.text (t.map fun r => r.text)

lemma getLastD_end_map (tl : List RawRecord) :
    ∀ hd : RawRecord,
      (tl.map (fun r => r.«end»)).getLastD hd.«end» = (tl.getLastD hd).«end» := by
  induction tl with
  | nil => intro hd; rfl
  | cons a t ih =>
    intro hd
    rw [List.map_cons, List.getLastD_cons, List.getLastD_cons, ih a]

/-- C4: the frame condition of the Event Collator. For an event id
present in the input, the produced entry keeps the id, event_id, start
and speaker of the first record carrying that event id; its end is the
end of the last such record; and its text is the single-space join of
all such records' texts in input order. -/
theorem collate_records_frame (records : List RawRecord) (e : Option String)
    (hd : RawRecord) (tl : List RawRecord)
    (hf : records.filter (fun r => r.event_id == e) = hd :: tl) :
    ∃ entry, (collate_records records).find? (fun v => v.event_id == e) = some entry ∧
      entry.id = hd.id ∧ entry.event_id = hd.event_id ∧ entry.start = hd.start ∧
      entry.speaker = hd.speaker ∧
      entry.«end» = (tl.getLastD hd).«end» ∧
      entry.text = joinSp ((hd :: tl).map (fun r => r.text)) := by
  unfold collate_records
  rw [find?_collate_aux records [] e]
  simp only [List.find?_nil, hf]
  refine ⟨tl.foldl mergeEvt (initEvt hd), rfl, ?_, ?_, ?_, ?_, ?_, ?_⟩
  · rw [foldl_mergeEvt_id]; rfl
  · rw [foldl_mergeEvt_event_id]; rfl
  · rw [foldl_mergeEvt_start]; rfl
  · rw [foldl_mergeEvt_speaker]; rfl
  · rw [foldl_mergeEvt_end, ← getLastD_end_map]; rfl
  · rw [foldl_mergeEvt_text, List.map_cons]; rfl

/-- Two fragments of one event used as the concrete frame-condition
example. -/
def c4r1 : RawRecord :=
  { event_id := some "1", sequence := some "1", start := some "00:00:01.000",
    «end» := some "00:00:02.000", speaker := some "S", text := "x" }

/-- The second fragment of the same event. -/
def c4r2 : RawRecord :=
  { c4r1 with sequence := some "2", «end» := some "00:00:03.000", text := "y" }

/-- Witness for C4 on the two concrete fragments. -/
theorem collate_records_frame_witness :
    ∃ entry, (collate_records [c4r1, c4r2]).find? (fun v => v.event_id == some "1") =
        some entry ∧
      entry.id = c4r1.id ∧ entry.event_id = c4r1.event_id ∧ entry.start = c4r1.start ∧
      entry.speaker = c4r1.speaker ∧
      entry.«end» = ([c4r2].getLastD c4r1).«end» ∧
      entry.text = joinSp ([c4r1, c4r2].map (fun r => r.text)) :=
  collate_records_frame [c4r1, c4r2] (some "1") c4r1 [c4r2] (by decide)

/-! Record Sorter lemmas. -/

lemma pairLe_refl (p : Int × Int) : pairLe p p := Or.inr ⟨rfl, le_refl _⟩

instance : IsTotal RawRecord recLe :=
  ⟨fun a b => by unfold recLe pairLe; omega⟩

instance : IsTrans RawRecord recLe :=
  ⟨fun a b c => by unfold recLe pairLe; omega⟩

/-- Inserting an element that satisfies a predicate, when every element
strictly below it fails the predicate, commutes with filtering: the
element lands in front of the filtered rest. -/
lemma filter_orderedInsert_pos {α : Type*} (le : α → α → Prop) [DecidableRel le]
    (p : α → Bool) (b : α) (hb : p b = true)
    (hskip : ∀ c, ¬ le b c → p c = false) :
    ∀ m : List α, (List.orderedInsert le b m).filter p = b :: m.filter p := by
  intro m
  induction m with
  | nil => simp [hb]
  | cons c m ih =>
    by_cases h : le b c
    · simp [List.orderedInsert, if_pos h, List.filter_cons, hb]
    · have hc := hskip c h
      simp only [List.orderedInsert, if_neg h, List.filter_cons, hc]
      simp [hc, ih]

/-- Inserting an element that fails the predicate does not change the
filtered list. -/
lemma filter_orderedInsert_neg {α : Type*} (le : α → α → Prop) [DecidableRel le]
    (p : α → Bool) (b : α) (hb : p b = false) :
    ∀ m : List α, (List.orderedInsert le b m).filter p = m.filter p := by
  intro m
  induction m with
  | nil => simp [hb]
  | cons c m ih =>
    by_cases h : le b c
    · simp [List.orderedInsert, if_pos h, List.filter_cons, hb]
    · simp [List.orderedInsert, if_neg h, List.filter_cons, ih]

/-- Stability of insertion sort, phrased through filters: when elements
left of the insertion point of any kept element are never kept, sorting
preserves the filtered subsequence. -/
lemma filter_insertionSort {α : Type*} (le : α → α → Prop) [DecidableRel le]
    (p : α → Bool) :
    ∀ l : List α, (∀ a ∈ l, ∀ c, p a = true → ¬ le a c → p c = false) →
      (List.insertionSort le l).filter p = l.filter p := by
  intro l
  induction l with
  | nil => intro _; rfl
  | cons b l ih =>
    intro h
    rw [List.insertionSort]
    by_cases hb : p b = true
    · rw [filter_orderedInsert_pos le p b hb (fun c => h b (List.mem_cons_self b l) c hb),
        ih (fun a ha c => h a (List.mem_cons_of_mem b ha) c), List.filter_cons]
      simp [hb]
    · have hb2 : p b = false := by simpa using hb
      rw [filter_orderedInsert_neg le p b hb2,
        ih (fun a ha c => h a (List.mem_cons_of_mem b ha) c), List.filter_cons]
      simp [hb2]

/-- C5: the Record Sorter contract. When every record's event_id and
sequence parse as integers, sort_records succeeds with a permutation of
its input that is sorted ascending by the (numeric event_id, numeric
sequence) pair and that preserves the input's relative order on every
exact key tie; when some record's field does not parse, it fails with
the invalid-numeric-field error and produces no output. -/
theorem sort_records_spec (records : List RawRecord) :
    ((∀ r ∈ records, (pyIntOpt r.event_id).isSome ∧ (pyIntOpt r.sequence).isSome) →
      ∃ out, sort_records records = .ok out ∧ records.Perm out ∧
        List.Pairwise recLe out ∧
        ∀ k : Int × Int, out.filter (fun r => sortKey r == k) =
          records.filter (fun r => sortKey r == k)) ∧
    ((¬ ∀ r ∈ records, (pyIntOpt r.event_id).isSome ∧ (pyIntOpt r.sequence).isSome) →
      sort_records records = .error .invalidNumericField) := by
  constructor
  · intro hall
    have hcond : records.all
        (fun r => (pyIntOpt r.event_id).isSome && (pyIntOpt r.sequence).isSome) = true := by
      rw [List.all_eq_true]
      intro r hr
      have := hall r hr
      simp [this.1, this.2]
    refine ⟨List.insertionSort recLe records, ?_, ?_, ?_, ?_⟩
    · unfold sort_records
      rw [if_pos hcond]
    · exact (List.perm_insertionSort recLe records).symm
    · exact List.sorted_insertionSort recLe records
    · intro k
      apply filter_insertionSort
      intro a ha c hpa hnle
      have hka : sortKey a = k := by simpa [beq_iff_eq] using hpa
      have hne : sortKey c ≠ sortKey a := fun he =>
        hnle (by unfold recLe; rw [he]; exact pairLe_refl _)
      exact beq_eq_false_iff_ne.mpr (hka ▸ hne)
  · intro hnall
    unfold sort_records
    have hc : ¬ (records.all
        (fun r => (pyIntOpt r.event_id).isSome && (pyIntOpt r.sequence).isSome) = true) := by
      intro hc
      apply hnall
      intro r hr
      have := List.all_eq_true.mp hc r hr
      constructor
      · exact (Bool.and_eq_true_iff.mp this).1
      · exact (Bool.and_eq_true_iff.mp this).2
    rw [if_neg hc]

/-- Witness for C5 at a concrete two-record list that sorting must
swap. -/
theorem sort_records_spec_witness :
    ∃ out, sort_records
        [{ event_id := some "2", sequence := some "1" },
         { event_id := some "1", sequence := some "1" }] = .ok out ∧
      List.Perm
        [{ event_id := some "2", sequence := some "1" },
         { event_id := some "1", sequence := some "1" }] out ∧
      List.Pairwise recLe out ∧
      ∀ k : Int × Int, out.filter (fun r => sortKey r == k) =
        List.filter (fun r => sortKey r == k)
          [{ event_id := some "2", sequence := some "1" },
           { event_id := some "1", sequence := some "1" }] :=
  (sort_records_spec _).1 (by decide)

/-! Pipeline lemmas shared by the completeness and ordering
properties. -/

/-- The collated_events lists of the v2 loop output concatenate to the
open block's list followed by the event ids of the remaining input. -/
lemma v2loop_flatten (es : List EventRecord) :
    ∀ cur, (v2loop cur es).flatMap (fun t => t.collated_events) =
      cur.collated_events ++ es.map (fun r => r.event_id) := by
  induction es with
  | nil => intro cur; simp [v2loop]
  | cons r rest ih =>
    intro cur
    by_cases h : cur.speaker = r.speaker
    · simp only [v2loop, if_pos h, ih, mergeTurn_collated, List.map_cons]
      simp [List.append_assoc]
    · simp only [v2loop, if_neg h, List.flatMap_cons, ih, initTurn_collated, List.map_cons]
      simp

/-- The collated_events lists of the Speaker Collator output
concatenate to the event ids of its input, in order. -/
lemma collate_records_v2_flatten (es : List EventRecord) :
    (collate_records_v2 es).flatMap (fun t => t.collated_events) =
      es.map (fun r => r.event_id) := by
  cases es with
  | nil => rfl
  | cons r rest =>
    simp only [collate_records_v2, v2loop_flatten, initTurn_collated, List.map_cons]
    simp

/-- A pairwise relation on the concatenation of the per-element lists
induces the corresponding chain relation on the elements. -/
lemma chain'_of_pairwise_flatMap {α β : Type*} (R : β → β → Prop) (f : α → List β) :
    ∀ ts : List α, List.Pairwise R (ts.flatMap f) →
      List.Chain' (fun a b => ∀ x ∈ f a, ∀ y ∈ f b, R x y) ts := by
  intro ts
  induction ts with
  | nil => intro _; simp
  | cons a ts ih =>
    intro hp
    rw [List.flatMap_cons, List.pairwise_append] at hp
    obtain ⟨_, h2, h3⟩ := hp
    rw [List.chain'_cons']
    refine ⟨?_, ih h2⟩
    intro hd hm x hx y hy
    exact h3 x hx y (List.mem_flatMap.mpr ⟨hd, List.mem_of_mem_head? hm, hy⟩)

instance : IsTotal EventRecord evLe :=
  ⟨fun a b => Int.le_total (eventKey a) (eventKey b)⟩

instance : IsTrans EventRecord evLe :=
  ⟨fun _ _ _ hab hbc => le_trans hab hbc⟩

/-- A successful sort_records call returns the stable sort of its
input. -/
lemma sort_records_ok (rs srs : List RawRecord) (h : sort_records rs = .ok srs) :
    srs = List.insertionSort recLe rs := by
  unfold sort_records at h
  split at h
  · injection h with h2
    exact h2.symm
  · exact Except.noConfusion h

/-- A successful re-sort of the collated records returns their stable
sort by numeric event id. -/
lemma sortCollated_ok (l fs : List EventRecord) (h : sortCollated l = .ok fs) :
    fs = List.insertionSort evLe l := by
  unfold sortCollated at h
  split at h
  · injection h with h2
    exact h2.symm
  · exact Except.noConfusion h

/-- Destructuring a successful pipeline run into its stages. -/
lemma process_parts (lines : List String) (ts : List TurnRecord)
    (h : process_vtt_to_dictionary lines = .ok ts) :
    ∃ rs srs fs, parse_vtt lines = .ok rs ∧ sort_records rs = .ok srs ∧
      sortCollated (collate_records srs) = .ok fs ∧
      ts = collate_records_v2 fs := by
  unfold process_vtt_to_dictionary at h
  cases hp : parse_vtt lines with
  | error e => rw [hp] at h; simp [Bind.bind, Except.bind] at h
  | ok rs =>
    rw [hp] at h
    simp only [Bind.bind, Except.bind] at h
    cases hs : sort_records rs with
    | error e => rw [hs] at h; simp at h
    | ok srs =>
      rw [hs] at h
      dsimp only at h
      cases hf : sortCollated (collate_records srs) with
      | error e => rw [hf] at h; simp at h
      | ok fs =>
        rw [hf] at h
        simp only [pure, Except.pure] at h
        injection h with h2
        exact ⟨rs, srs, fs, rfl, hs, hf, h2.symm⟩

/-- The numeric event ids collected in a turn: the parseable values
among its collated event id strings. -/
def evNums (t : TurnRecord) : List Int := t.collated_events.filterMap pyIntOpt

/-- Counterexample to C2 as stated: the event id strings 01 and 1 are
distinct dictionary keys but share the numeric value 1, so the two
adjacent output turns have equal, not strictly increasing, numeric
event ids. -/
theorem pipeline_ordering_counterexample :
    (process_vtt_to_dictionary
        ["ch/01-1", "00:00:01.000 --> 00:00:02.000", "<v Alice>a</v>", "",
         "ch/1-1", "00:00:02.000 --> 00:00:03.000", "<v Bob>b</v>"]).map
      (fun ts => ts.map evNums) = .ok [[1], [1]] ∧
    ¬ ∀ x ∈ [(1 : Int)], ∀ y ∈ [(1 : Int)], x < y :=
  ⟨by rfl, by simp⟩

/-- C2 amended: in every successful pipeline run, the numeric event ids
across adjacent output turns are monotone: every numeric event id of an
earlier turn is at most every numeric event id of the adjacent later
turn (strictness fails only when two distinct event id strings share a
numeric value, as with a leading zero). -/
theorem pipeline_ordering_amended (lines : List String) (ts : List TurnRecord)
    (h : process_vtt_to_dictionary lines = .ok ts) :
    List.Chain' (fun a b => ∀ x ∈ evNums a, ∀ y ∈ evNums b, x ≤ y) ts := by
  obtain ⟨rs, srs, fs, hp, hs, hf, hv⟩ := process_parts lines ts h
  subst hv
  have hsorted : List.Pairwise evLe fs := by
    rw [sortCollated_ok _ _ hf]
    exact List.sorted_insertionSort evLe _
  have hpw : List.Pairwise
      (fun x y : Option String => (pyIntOpt x).getD 0 ≤ (pyIntOpt y).getD 0)
      ((collate_records_v2 fs).flatMap fun t => t.collated_events) := by
    rw [collate_records_v2_flatten]
    exact List.Pairwise.map _ (fun a b hab => hab) hsorted
  have hch := chain'_of_pairwise_flatMap _ _ _ hpw
  apply List.Chain'.imp ?_ hch
  intro a b hq x hx y hy
  obtain ⟨o1, ho1, hox⟩ := List.mem_filterMap.mp hx
  obtain ⟨o2, ho2, hoy⟩ := List.mem_filterMap.mp hy
  have hle := hq o1 ho1 o2 ho2
  rw [hox, hoy] at hle
  simpa using hle

/-- Witness for C2 amended on a concrete two-event input. -/
theorem pipeline_ordering_amended_witness :
    List.Chain' (fun a b => ∀ x ∈ evNums a, ∀ y ∈ evNums b, x ≤ y)
      [{ id := some "ch/1-1", event_id := some "1", start := some "00:00:01.000",
         «end» := some "00:00:02.000", speaker := some "Alice", text := "a ",
         collated_events := [some "1"] },
       { id := some "ch/2-1", event_id := some "2", start := some "00:00:02.000",
         «end» := some "00:00:03.000", speaker := some "Bob", text := "b ",
         collated_events := [some "2"] }] :=
  pipeline_ordering_amended
    ["ch/1-1", "00:00:01.000 --> 00:00:02.000", "<v Alice>a</v>", "",
     "ch/2-1", "00:00:02.000 --> 00:00:03.000", "<v Bob>b</v>"] _ (by rfl)

/-- The key list of the dictionary after one insertion: unchanged when
the key is present, extended at the back when it is new. -/
lemma insertRecord_keys (acc : List EventRecord) (r : RawRecord) :
    (insertRecord acc r).map (fun e => e.event_id) =
      if r.event_id ∈ acc.map (fun e => e.event_id) then acc.map (fun e => e.event_id)
      else acc.map (fun e => e.event_id) ++ [r.event_id] := by
  induction acc with
  | nil => simp [insertRecord, initEvt]
  | cons e es ih =>
    by_cases he : e.event_id = r.event_id
    · simp [insertRecord, if_pos he, mergeEvt_event_id, he.symm]
    · simp only [insertRecord, if_neg he, List.map_cons, ih]
      by_cases hm : r.event_id ∈ es.map (fun e => e.event_id)
      · simp [hm]
      · have hne : ¬ r.event_id = e.event_id := fun h => he h.symm
        simp [hm, hne]

/-- Keys of the dictionary built by the fold: no duplicates, and
exactly the event ids of the processed records plus the initial keys. -/
lemma collate_keys (l : List RawRecord) :
    ∀ acc : List EventRecord, (acc.map (fun e => e.event_id)).Nodup →
      ((l.foldl insertRecord acc).map (fun e => e.event_id)).Nodup ∧
      ∀ k, k ∈ (l.foldl insertRecord acc).map (fun e => e.event_id) ↔
        k ∈ acc.map (fun e => e.event_id) ∨ k ∈ l.map (fun r => r.event_id) := by
  induction l with
  | nil =>
    intro acc h
    exact ⟨h, fun k => by simp⟩
  | cons r l ih =>
    intro acc h
    rw [List.foldl_cons]
    have hkeys := insertRecord_keys acc r
    by_cases hm : r.event_id ∈ acc.map (fun e => e.event_id)
    · rw [if_pos hm] at hkeys
      have hnd2 : ((insertRecord acc r).map (fun e => e.event_id)).Nodup := by
        rw [hkeys]; exact h
      obtain ⟨n1, n2⟩ := ih (insertRecord acc r) hnd2
      refine ⟨n1, fun k => ?_⟩
      rw [n2 k, hkeys]
      simp only [List.map_cons, List.mem_cons]
      constructor
      · rintro (h1 | h1)
        · exact Or.inl h1
        · exact Or.inr (Or.inr h1)
      · rintro (h1 | h1 | h1)
        · exact Or.inl h1
        · exact Or.inl (h1 ▸ hm)
        · exact Or.inr h1
    · rw [if_neg hm] at hkeys
      have hnd2 : ((insertRecord acc r).map (fun e => e.event_id)).Nodup := by
        rw [hkeys]
        simp [List.nodup_append, h, hm]
      obtain ⟨n1, n2⟩ := ih (insertRecord acc r) hnd2
      refine ⟨n1, fun k => ?_⟩
      rw [n2 k, hkeys]
      simp only [List.mem_append, List.mem_singleton, List.map_cons, List.mem_cons]
      tauto

/-- The Event Collator emits one record per distinct event id of its
input. -/
lemma collate_records_length (l : List RawRecord) :
    (collate_records l).length = ((l.map fun r => r.event_id).dedup).length := by
  obtain ⟨n1, n2⟩ := collate_keys l [] (by simp)
  have hmem : ∀ k, k ∈ (l.foldl insertRecord []).map (fun e => e.event_id) ↔
      k ∈ l.map (fun r => r.event_id) := by
    intro k
    rw [n2 k]
    simp
  unfold collate_records
  calc (l.foldl insertRecord []).length
      = ((l.foldl insertRecord []).map (fun e => e.event_id)).length := by
        rw [List.length_map]
    _ = ((l.foldl insertRecord []).map (fun e => e.event_id)).toFinset.card :=
        (List.toFinset_card_of_nodup n1).symm
    _ = (l.map fun r => r.event_id).toFinset.card := by
        congr 1
        ext k
        simp only [List.mem_toFinset]
        exact hmem k
    _ = ((l.map fun r => r.event_id).dedup).length := List.card_toFinset _

/-- Counterexample to C1 as stated: an event split into two fragments
yields two raw records but a single collated_events entry; the raw
record count and the collated entry count differ. -/
theorem pipeline_completeness_counterexample :
    (parse_vtt
        ["ch/1-1", "00:00:01.000 --> 00:00:02.000", "<v Alice>a</v>", "",
         "ch/1-2", "00:00:02.000 --> 00:00:03.000", "<v Alice>b</v>"]).map
      List.length = .ok 2 ∧
    (process_vtt_to_dictionary
        ["ch/1-1", "00:00:01.000 --> 00:00:02.000", "<v Alice>a</v>", "",
         "ch/1-2", "00:00:02.000 --> 00:00:03.000", "<v Alice>b</v>"]).map
      (fun ts => (ts.map fun t => t.collated_events.length).sum) = .ok 1 ∧
    (2 : Nat) ≠ 1 :=
  ⟨by rfl, by rfl, by decide⟩

/-- C1 amended: in every successful pipeline run, the total number of
entries across the output's collated_events lists equals the number of
distinct event_id values among the raw records produced by the parser
(the raw record count itself is only reached when no event id
repeats). -/
theorem pipeline_completeness_amended (lines : List String) (rs : List RawRecord)
    (ts : List TurnRecord) (hp : parse_vtt lines = .ok rs)
    (hts : process_vtt_to_dictionary lines = .ok ts) :
    (ts.map fun t => t.collated_events.length).sum =
      ((rs.map fun r => r.event_id).dedup).length := by
  obtain ⟨rs2, srs, fs, hp2, hs, hf, hv⟩ := process_parts lines ts hts
  rw [hp] at hp2
  injection hp2 with hrs
  subst hrs
  subst hv
  have h1 : ((collate_records_v2 fs).map fun t => t.collated_events.length).sum
      = ((collate_records_v2 fs).flatMap fun t => t.collated_events).length := by
    rw [List.length_flatMap]
    rfl
  rw [h1, collate_records_v2_flatten, List.length_map]
  rw [sortCollated_ok _ _ hf, List.length_insertionSort, collate_records_length]
  have hperm : rs.Perm srs := by
    rw [sort_records_ok _ _ hs]
    exact (List.perm_insertionSort recLe rs).symm
  exact (List.Perm.length_eq (List.Perm.dedup (hperm.map fun r => r.event_id))).symm

/-- Witness for C1 amended on a concrete two-event input. -/
theorem pipeline_completeness_amended_witness :
    (([{ id := some "ch/1-1", event_id := some "1", start := some "00:00:01.000",
         «end» := some "00:00:02.000", speaker := some "Alice", text := "a ",
         collated_events := [some "1"] },
       { id := some "ch/2-1", event_id := some "2", start := some "00:00:02.000",
         «end» := some "00:00:03.000", speaker := some "Bob", text := "b ",
         collated_events := [some "2"] }] : List TurnRecord).map
      (fun t => t.collated_events.length)).sum =
    ((([{ id := some "ch/1-1", event_id := some "1", sequence := some "1",
          start := some "00:00:01.000", «end» := some "00:00:02.000",
          speaker := some "Alice", text := "a " },
        { id := some "ch/2-1", event_id := some "2", sequence := some "1",
          start := some "00:00:02.000", «end» := some "00:00:03.000",
          speaker := some "Bob", text := "b " }] : List RawRecord).map
      (fun r => r.event_id)).dedup).length :=
  pipeline_completeness_amended
    ["ch/1-1", "00:00:01.000 --> 00:00:02.000", "<v Alice>a</v>", "",
     "ch/2-1", "00:00:02.000 --> 00:00:03.000", "<v Bob>b</v>"] _ _ (by rfl) (by rfl)

/-- Reading a TurnRecord back as Event Collator input: the Python code
passes the turn dictionaries unchanged, and collate_records reads only
the six event fields (the sequence key is never read). -/
def turnToRaw (t : TurnRecord) : RawRecord :=
  { id := t.id, event_id := t.event_id, sequence := none, start := t.start,
    «end» := t.«end», speaker := t.speaker, text := t.text }

/-- Inserting a record whose event id is absent from the dictionary
appends a fresh entry at the back. -/
lemma insertRecord_append (acc : List EventRecord) (r : RawRecord)
    (h : ∀ e ∈ acc, e.event_id ≠ r.event_id) :
    insertRecord acc r = acc ++ [initEvt r] := by
  induction acc with
  | nil => rfl
  | cons e es ih =>
    rw [insertRecord, if_neg (h e (List.mem_cons_self e es)),
      ih (fun e2 he2 => h e2 (List.mem_cons_of_mem e he2))]
    rfl

/-- When no event id repeats, the Event Collator is the one-for-one map
creating a fresh entry per record. -/
lemma collate_records_of_nodup (l : List RawRecord) :
    ∀ acc : List EventRecord, (∀ e ∈ acc, ∀ r ∈ l, e.event_id ≠ r.event_id) →
      (l.map fun r => r.event_id).Nodup →
      l.foldl insertRecord acc = acc ++ l.map initEvt := by
  induction l with
  | nil => intro acc _ _; simp
  | cons r l ih =>
    intro acc hdisj hnd
    rw [List.map_cons, List.nodup_cons] at hnd
    rw [List.foldl_cons,
      insertRecord_append acc r (fun e he => hdisj e he r (List.mem_cons_self r l)),
      ih (acc ++ [initEvt r]) ?_ hnd.2]
    · simp
    · intro e he r2 hr2
      rcases List.mem_append.mp he with h1 | h1
      · exact hdisj e h1 r2 (List.mem_cons_of_mem r hr2)
      · rw [List.mem_singleton] at h1
        subst h1
        rw [initEvt_event_id]
        intro hevt
        exact hnd.1 (hevt ▸ List.mem_map_of_mem (fun r => r.event_id) hr2)

/-- When no two adjacent records share a speaker, the v2 loop merges
nothing: it emits the open block and one fresh turn per record. -/
lemma v2loop_all_ne (rest : List EventRecord) :
    ∀ cur : TurnRecord, (∀ hd ∈ rest.head?, cur.speaker ≠ hd.speaker) →
      List.Chain' (fun a b : EventRecord => a.speaker ≠ b.speaker) rest →
      v2loop cur rest = cur :: rest.map initTurn := by
  induction rest with
  | nil => intro cur _ _; rfl
  | cons r rest ih =>
    intro cur hhd hch
    have hne : cur.speaker ≠ r.speaker := hhd r (by simp)
    rw [List.chain'_cons'] at hch
    simp only [v2loop, if_neg hne, List.map_cons]
    congr 1
    exact ih (initTurn r) (fun hd hm => (initTurn_speaker r) ▸ hch.1 hd hm) hch.2

/-- When no two adjacent records share a speaker, the Speaker Collator
is the one-for-one map opening a singleton turn per record. -/
lemma collate_records_v2_of_ne (es : List EventRecord)
    (hch : List.Chain' (fun a b : EventRecord => a.speaker ≠ b.speaker) es) :
    collate_records_v2 es = es.map initTurn := by
  cases es with
  | nil => rfl
  | cons r rest =>
    rw [List.chain'_cons'] at hch
    rw [collate_records_v2, List.map_cons]
    exact v2loop_all_ne rest (initTurn r)
      (fun hd hm => (initTurn_speaker r) ▸ hch.1 hd hm) hch.2

/-- Counterexample to C8 as stated: three singleton turns with
alternating speakers but a repeated event id string. The Event Collator
merges the first and third turn (same dictionary key), so the
round-trip returns two turns, not the original three. -/
theorem collate_idempotent_counterexample :
    (∀ t ∈ ([{ id := none, event_id := some "1", start := none, «end» := none,
               speaker := some "Alice", text := "x", collated_events := [some "1"] },
             { id := none, event_id := some "2", start := none, «end» := none,
               speaker := some "Bob", text := "y", collated_events := [some "2"] },
             { id := none, event_id := some "1", start := none, «end» := none,
               speaker := some "Alice", text := "z", collated_events := [some "1"] }] :
             List TurnRecord),
      t.collated_events.length = 1) ∧
    List.Chain' (fun a b : TurnRecord => a.speaker ≠ b.speaker)
      [{ id := none, event_id := some "1", start := none, «end» := none,
         speaker := some "Alice", text := "x", collated_events := [some "1"] },
       { id := none, event_id := some "2", start := none, «end» := none,
         speaker := some "Bob", text := "y", collated_events := [some "2"] },
       { id := none, event_id := some "1", start := none, «end» := none,
         speaker := some "Alice", text := "z", collated_events := [some "1"] }] ∧
    collate_records_v2 (collate_records
      (([{ id := none, event_id := some "1", start := none, «end» := none,
           speaker := some "Alice", text := "x", collated_events := [some "1"] },
         { id := none, event_id := some "2", start := none, «end» := none,
           speaker := some "Bob", text := "y", collated_events := [some "2"] },
         { id := none, event_id := some "1", start := none, «end» := none,
           speaker := some "Alice", text := "z", collated_events := [some "1"] }] :
         List TurnRecord).map turnToRaw)) ≠
      [{ id := none, event_id := some "1", start := none, «end» := none,
         speaker := some "Alice", text := "x", collated_events := [some "1"] },
       { id := none, event_id := some "2", start := none, «end» := none,
         speaker := some "Bob", text := "y", collated_events := [some "2"] },
       { id := none, event_id := some "1", start := none, «end» := none,
         speaker := some "Alice", text := "z", collated_events := [some "1"] }] := by
  refine ⟨by decide, ?_, by decide⟩
  rw [List.chain'_cons, List.chain'_cons]
  refine ⟨by decide, by decide, List.chain'_singleton _⟩

/-- C8 amended: the Event Collator followed by the Speaker Collator is
the identity on a sequence that is already speaker-collated, provided
additionally that each turn's collated_events is the singleton of its
own event id and that no event id string repeats anywhere in the
sequence (a repeat, even in non-adjacent turns, gets merged by the
Event Collator's dictionary). -/
theorem collate_idempotent_amended (ts : List TurnRecord)
    (h1 : ∀ t ∈ ts, t.collated_events = [t.event_id])
    (h2 : List.Chain' (fun a b : TurnRecord => a.speaker ≠ b.speaker) ts)
    (h3 : (ts.map fun t => t.event_id).Nodup) :
    collate_records_v2 (collate_records (ts.map turnToRaw)) = ts := by
  have hkeys : ((ts.map turnToRaw).map fun r => r.event_id) = ts.map fun t => t.event_id := by
    rw [List.map_map]
    rfl
  have hc : collate_records (ts.map turnToRaw) = (ts.map turnToRaw).map initEvt := by
    unfold collate_records
    rw [collate_records_of_nodup (ts.map turnToRaw) [] (by simp) (hkeys ▸ h3)]
    rfl
  rw [hc, List.map_map]
  have hch : List.Chain' (fun a b : EventRecord => a.speaker ≠ b.speaker)
      (ts.map (initEvt ∘ turnToRaw)) := by
    rw [List.chain'_map]
    exact h2
  rw [collate_records_v2_of_ne _ hch, List.map_map]
  have hid : ∀ t ∈ ts, (initTurn ∘ initEvt ∘ turnToRaw) t = id t := by
    intro t ht
    have hco := h1 t ht
    cases t with
    | mk i ev st en sp tx ce =>
      simp only [TurnRecord.mk.injEq] at hco
      simp [turnToRaw, initEvt, initTurn, Function.comp, id]
      exact hco.symm
  rw [List.map_congr_left hid, List.map_id]

/-- Witness for C8 amended on two concrete singleton turns. -/
theorem collate_idempotent_amended_witness :
    collate_records_v2 (collate_records
      (([{ id := some "a", event_id := some "1", start := some "s1", «end» := some "e1",
           speaker := some "Alice", text := "x", collated_events := [some "1"] },
         { id := some "b", event_id := some "2", start := some "s2", «end» := some "e2",
           speaker := some "Bob", text := "y", collated_events := [some "2"] }] :
         List TurnRecord).map turnToRaw)) =
      [{ id := some "a", event_id := some "1", start := some "s1", «end» := some "e1",
         speaker := some "Alice", text := "x", collated_events := [some "1"] },
       { id := some "b", event_id := some "2", start := some "s2", «end» := some "e2",
         speaker := some "Bob", text := "y", collated_events := [some "2"] }] :=
  collate_idempotent_amended _ (by decide)
    (by rw [List.chain'_cons]; exact ⟨by decide, List.chain'_singleton _⟩) (by decide)
